import Mathlib

/-!
# Polar shadow map (kettek/polar-shadow-map-ebiten)

Shallow embedding of `main.go`: the two Kage fragment shaders (`polarShader`,
`shadowShader`) and the parts of `Game.Update` / `Game.Draw` that feed them.

Shader floats are modelled as elements of a linearly ordered field `α`
(exact arithmetic); the transcendental builtins `sin`, `cos`, `atan2` and
`sqrt` are taken as function parameters, so the definitions stay executable
over `ℚ` and can be instantiated with the real functions over `ℝ`.
-/

namespace PolarShadow

variable {α : Type} [LinearOrderedField α]

/-! ## Shader vectors and images -/

/-- Shader `vec2`. -/
structure Vec2 (α : Type) where
  x : α
  y : α

/-- Shader `vec4`, read as a colour `(r, g, b, a)` or as a position `(x, y, z, w)`. -/
structure Vec4 (α : Type) where
  r : α
  g : α
  b : α
  a : α

/-- The `y` component of a `vec4` used as a position. -/
def Vec4.posY (v : Vec4 α) : α := v.g

/-- Source image 0 of a shader, as the function `imageSrc0UnsafeAt` computes:
the texel colour found at a texture coordinate. -/
abbrev Image (α : Type) := Vec2 α → Vec4 α

/-! ## Kage builtins -/

/-- Builtin `step(edge, x)`: `0` when `x < edge`, else `1`. -/
def step (edge x : α) : α := if x < edge then 0 else 1

/-- Builtin `clamp(x, lo, hi) = min(max(x, lo), hi)`. -/
def clamp (x lo hi : α) : α := min (max x lo) hi

/-- Builtin `smoothstep(e0, e1, x) = t*t*(3 - 2t)` with
`t = clamp((x - e0)/(e1 - e0), 0, 1)`. -/
def smoothstep (e0 e1 x : α) : α :=
  let t := clamp ((x - e0) / (e1 - e0)) 0 1
  t * t * (3 - 2 * t)

/-- Builtin `mix(x, y, a) = x*(1 - a) + y*a`. -/
def mix (x y a : α) : α := x * (1 - a) + y * a

/-- Builtin `length(v)` of a `vec2`, over a given square-root function. -/
def length (sqrt : α → α) (v : Vec2 α) : α := sqrt (v.x * v.x + v.y * v.y)

/-- The constant `pi := 3.14` both shaders declare. -/
def shaderPi : α := 3.14

/-! ## `polarShader` -/

/-- Body of the `polarShader` loop up to the sample coordinate (source lines
23-28), for column `s = texCoord.s` and loop variable `y`, with the shader's
`pi` left as a parameter:
`norm := vec2(s, y / resolution.y) * 2.0 - 1.0`,
`theta := pi * 1.5 + norm.x * pi`, `r := (1.0 + norm.y) * 0.5`,
`coord := vec2(-r * sin(theta), -r * cos(theta)) / 2.0 + 0.5`. -/
def polarCoord (sin cos : α → α) (pi s y : α) : Vec2 α :=
  let norm : Vec2 α := ⟨s * 2 - 1, y / 180 * 2 - 1⟩
  let theta := pi * 1.5 + norm.x * pi
  let r := (1 + norm.y) * 0.5
  ⟨-r * sin theta / 2 + 0.5, -r * cos theta / 2 + 0.5⟩

/-- The loop `for y := 0.0; y < 180.0; y += 1.0` of `polarShader`, entered at
loop variable `y` with the current value of `dist`; the result is the value of
`dist` when the loop is left (by `break` or by the loop condition). -/
def polarMarch (sin cos : α → α) (occ : Image α) (s : α) (dist : α) (y : Nat) : α :=
  if y < 180 then
    let coord := polarCoord sin cos shaderPi s (y : α)
    let data := occ coord
    let dst := (y : α) / 180
    if data.a > 0.75 then
      min dist dst
    else
      polarMarch sin cos occ s dist (y + 1)
  else
    dist
termination_by 180 - y
decreasing_by omega

/-- The value of `dist` that `polarShader` returns for column `s`:
`dist := 1.0` followed by the loop from `y = 0`. -/
def polarDist (sin cos : α → α) (occ : Image α) (s : α) : α :=
  polarMarch sin cos occ s 1 0

/-- The `polarShader` entry point `Fragment`; `none` stands for `discard()`. -/
def polarFragment (sin cos : α → α) (occ : Image α)
    (position : Vec4 α) (texCoord : Vec2 α) : Option (Vec4 α) :=
  if position.posY > 1 then
    none
  else
    let dist := polarDist sin cos occ texCoord.x
    some ⟨dist, dist, dist, 1⟩

/-! ## `shadowShader` -/

/-- Line 56: `norm := vec2(texCoord.s * 2.0 - 1.0, texCoord.t * -2.0 + 1.0)`. -/
def shadowNorm (texCoord : Vec2 α) : Vec2 α :=
  ⟨texCoord.x * 2 - 1, texCoord.y * -2 + 1⟩

/-- Line 59: `coord := (theta + pi) / (2.0 * pi)`, the shader's `pi` left as a
parameter. -/
def shadowCoord (pi theta : α) : α := (theta + pi) / (2 * pi)

/-- Line 68: `blur := (1. / resolution.x) * smoothstep(0., 1., r)`. -/
def shadowBlur (r : α) : α := (1 / 180) * smoothstep 0 1 r

/-- Lines 62-85: the centre tap, the nine-tap weighted sum and
`lit := mix(center, sum, 1.0)`, for polar-map column coordinate `coord` and
radius `r`. -/
def shadowLit (polar : Image α) (coord r : α) : α :=
  let tc : Vec2 α := ⟨coord, 0⟩
  let center := step r (polar ⟨tc.x, tc.y⟩).r
  let blur := shadowBlur r
  let sum : α := 0
  let sum := sum + step r (polar ⟨tc.x - 4 * blur, tc.y⟩).r * 0.05
  let sum := sum + step r (polar ⟨tc.x - 3 * blur, tc.y⟩).r * 0.09
  let sum := sum + step r (polar ⟨tc.x - 2 * blur, tc.y⟩).r * 0.12
  let sum := sum + step r (polar ⟨tc.x - 1 * blur, tc.y⟩).r * 0.15
  let sum := sum + center * 0.16
  let sum := sum + step r (polar ⟨tc.x + 1 * blur, tc.y⟩).r * 0.15
  let sum := sum + step r (polar ⟨tc.x + 2 * blur, tc.y⟩).r * 0.12
  let sum := sum + step r (polar ⟨tc.x + 3 * blur, tc.y⟩).r * 0.09
  let sum := sum + step r (polar ⟨tc.x + 4 * blur, tc.y⟩).r * 0.05
  mix center sum 1

/-- The horizontal coordinates of the nine `imageSrc0UnsafeAt` calls of
`shadowShader` (lines 65-83), in the order of the kernel: each is the first
component of the `vec2` the call receives. -/
def shadowSampleXs (coord r : α) : List α :=
  let blur := shadowBlur r
  [coord - 4 * blur, coord - 3 * blur, coord - 2 * blur, coord - 1 * blur, coord,
   coord + 1 * blur, coord + 2 * blur, coord + 3 * blur, coord + 4 * blur]

/-- One tap of the kernel: `step(r, imageSrc0UnsafeAt(vec2(x, tc.y)).r)` with
`tc.y = 0`. -/
def shadowTap (polar : Image α) (r x : α) : α := step r (polar ⟨x, 0⟩).r

/-- The kernel weights of lines 73-83, in the same order. -/
def shadowWeights : List α := [0.05, 0.09, 0.12, 0.15, 0.16, 0.15, 0.12, 0.09, 0.05]

/-- The shader from line 59 on, as a function of the angle `theta` and the
radius `r` computed on lines 57-58: the alpha `(1.0-lit) * smoothstep(1.0, 0.0, r)`
of the returned colour. -/
def shadowAlphaAt (polar : Image α) (pi theta r : α) : α :=
  let coord := shadowCoord pi theta
  let lit := shadowLit polar coord r
  (1 - lit) * smoothstep 1 0 r

/-- The radius `r := length(norm)` of line 58. -/
def shadowRadius (sqrt : α → α) (texCoord : Vec2 α) : α :=
  length sqrt (shadowNorm texCoord)

/-- The angle `theta := atan2(norm.y, norm.x)` of line 57. -/
def shadowTheta (atan2 : α → α → α) (texCoord : Vec2 α) : α :=
  atan2 (shadowNorm texCoord).y (shadowNorm texCoord).x

/-- The alpha of the colour `shadowShader` returns for a pixel. -/
def shadowAlpha (atan2 : α → α → α) (sqrt : α → α) (polar : Image α)
    (texCoord : Vec2 α) : α :=
  shadowAlphaAt polar shaderPi (shadowTheta atan2 texCoord) (shadowRadius sqrt texCoord)

/-- The `shadowShader` entry point `Fragment`:
`col * vec4(vec3(1.0), (1.0-lit) * smoothstep(1.0, 0.0, r))` with
`col := vec4(0.0, 0.0, 0.0, 1.0)`. -/
def shadowFragment (atan2 : α → α → α) (sqrt : α → α) (polar : Image α)
    (texCoord : Vec2 α) : Vec4 α :=
  let col : Vec4 α := ⟨0, 0, 0, 1⟩
  let a := shadowAlpha atan2 sqrt polar texCoord
  ⟨col.r * 1, col.g * 1, col.b * 1, col.a * a⟩

/-! ## `Game` -/

/-- The vertex list `openBox`. -/
def openBox : List (α × α) := [(150, 150), (150, 300), (300, 300), (300, 150)]

/-- The initial value of the light position `circle`. -/
def circle : α × α := (200, 200)

/-- The keys `Update` polls with `ebiten.IsKeyPressed`. -/
structure Keys where
  keyLeft : Bool
  keyA : Bool
  keyRight : Bool
  keyD : Bool
  keyUp : Bool
  keyW : Bool
  keyDown : Bool
  keyS : Bool

/-- The effect of `Game.Update` on `circle` (lines 146-157). -/
def Update (keys : Keys) (c : α × α) : α × α :=
  let c := if keys.keyLeft || keys.keyA then (c.1 - 1, c.2) else c
  let c := if keys.keyRight || keys.keyD then (c.1 + 1, c.2) else c
  let c := if keys.keyUp || keys.keyW then (c.1, c.2 - 1) else c
  let c := if keys.keyDown || keys.keyS then (c.1, c.2 + 1) else c
  c

/-- One `vector.StrokeLine(dst, x0, y0, x1, y1, strokeWidth, clr, antialias)`
call on the occlusion image, without its colour. -/
structure StrokeLine (α : Type) where
  x0 : α
  y0 : α
  x1 : α
  y1 : α
  strokeWidth : α
  antialias : Bool

/-- The `StrokeLine` calls of the wall loop of `Draw` on the occlusion image
(lines 187-195), in order, for the vertex list `box`:
`b` is `p` itself when `i+1 >= len(box)` and `box[i+1]` otherwise. -/
def occlusionStrokes (box : List (α × α)) : List (StrokeLine α) :=
  box.enum.map fun ip =>
    let i := ip.1
    let p := ip.2
    let b := if i + 1 ≥ box.length then p else box.getD (i + 1) p
    ⟨p.1 + 1, p.2 + 1, b.1 + 1, b.2 + 1, 4, true⟩

/-- The premultiplied colour, components in `[0, 1]`, that `Image.Fill` writes
for a `color.NRGBA{r, g, b, a}`: the 16-bit values of `NRGBA.RGBA()` over
`0xffff`. -/
def nrgba (r g b a : Nat) : Vec4 α :=
  ⟨((r * 257 * a / 255 : Nat) : α) / 65535, ((g * 257 * a / 255 : Nat) : α) / 65535,
   ((b * 257 * a / 255 : Nat) : α) / 65535, ((a * 257 : Nat) : α) / 65535⟩

/-- The image after `Fill(c)`: every pixel holds `c`. -/
def fill (c : Vec4 α) : Image α := fun _ => c

/-- The occlusion image right after line 185,
`g.OcclusionImage.Fill(color.NRGBA{255, 255, 255, 255})`, before any wall is
stroked. -/
def clearedOcclusion : Image α := fill (nrgba 255 255 255 255)

/-! ## Lemmas on the `polarShader` loop -/

section PolarLoop

variable (sin cos : α → α) (occ : Image α) (s dist : α)

/-- When no sample from `y` on passes the alpha test, the loop leaves `dist`
unchanged. -/
theorem polarMarch_no_hit (n : Nat) : ∀ y : Nat, 180 - y = n →
    (∀ k : Nat, y ≤ k → k < 180 → ¬ (occ (polarCoord sin cos shaderPi s (k : α))).a > 0.75) →
    polarMarch sin cos occ s dist y = dist := by
  induction n with
  | zero =>
    intro y hy _
    rw [polarMarch, if_neg (by omega)]
  | succ n ih =>
    intro y hy hno
    rw [polarMarch, if_pos (by omega)]
    simp only
    rw [if_neg (hno y le_rfl (by omega))]
    exact ih (y + 1) (by omega) (fun k hk hk2 => hno k (by omega) hk2)

/-- When the first sample from `y` on that passes the alpha test is at `k`,
the loop leaves with `min dist (k / 180)`. -/
theorem polarMarch_first_hit (k : Nat) (hk : k < 180)
    (hhit : (occ (polarCoord sin cos shaderPi s (k : α))).a > 0.75) (d : Nat) :
    ∀ y : Nat, y + d = k →
    (∀ j : Nat, y ≤ j → j < k → ¬ (occ (polarCoord sin cos shaderPi s (j : α))).a > 0.75) →
    polarMarch sin cos occ s dist y = min dist ((k : α) / 180) := by
  induction d with
  | zero =>
    intro y hy _
    have hyk : y = k := by omega
    subst hyk
    rw [polarMarch, if_pos hk]
    simp only
    rw [if_pos hhit]
  | succ d ih =>
    intro y hy hno
    rw [polarMarch, if_pos (by omega)]
    simp only
    rw [if_neg (hno y le_rfl (by omega))]
    exact ih (y + 1) (by omega) (fun j hj hj2 => hno j (by omega) hj2)

end PolarLoop

/-! ## Claims on `polarShader` -/

/-- C1: for every occlusion map and every column `texCoord.s`, a fragment that
is not discarded returns `(dist, dist, dist, 1)` where `dist` is `k/180` for the
smallest loop index `k` in `0..179` whose sampled alpha exceeds `0.75`, and
`1` when no index in `0..179` has such a sample; `dist` always lies in `[0, 1]`. -/
theorem polar_output_is_first_hit (sin cos : α → α) (occ : Image α)
    (position : Vec4 α) (texCoord : Vec2 α) :
    (position.posY ≤ 1 → polarFragment sin cos occ position texCoord =
      some ⟨polarDist sin cos occ texCoord.x, polarDist sin cos occ texCoord.x,
        polarDist sin cos occ texCoord.x, 1⟩) ∧
    (∀ k : Nat, k < 180 →
      (occ (polarCoord sin cos shaderPi texCoord.x (k : α))).a > 0.75 →
      (∀ j : Nat, j < k → ¬ (occ (polarCoord sin cos shaderPi texCoord.x (j : α))).a > 0.75) →
      polarDist sin cos occ texCoord.x = (k : α) / 180) ∧
    ((∀ k : Nat, k < 180 →
        ¬ (occ (polarCoord sin cos shaderPi texCoord.x (k : α))).a > 0.75) →
      polarDist sin cos occ texCoord.x = 1) ∧
    0 ≤ polarDist sin cos occ texCoord.x ∧ polarDist sin cos occ texCoord.x ≤ 1 := by
  have hfirst : ∀ k : Nat, k < 180 →
      (occ (polarCoord sin cos shaderPi texCoord.x (k : α))).a > 0.75 →
      (∀ j : Nat, j < k → ¬ (occ (polarCoord sin cos shaderPi texCoord.x (j : α))).a > 0.75) →
      polarDist sin cos occ texCoord.x = (k : α) / 180 := by
    intro k hk hhit hmin
    have h := polarMarch_first_hit sin cos occ texCoord.x 1 k hk hhit k 0 (by omega)
      (fun j _ hj => hmin j hj)
    have hk1 : (k : α) / 180 ≤ 1 := by
      rw [div_le_one (by norm_num)]
      exact_mod_cast hk.le
    rw [polarDist, h, min_eq_right hk1]
  have hnone : (∀ k : Nat, k < 180 →
        ¬ (occ (polarCoord sin cos shaderPi texCoord.x (k : α))).a > 0.75) →
      polarDist sin cos occ texCoord.x = 1 := by
    intro hno
    exact polarMarch_no_hit sin cos occ texCoord.x 1 180 0 rfl (fun k _ hk => hno k hk)
  have hrange : 0 ≤ polarDist sin cos occ texCoord.x ∧ polarDist sin cos occ texCoord.x ≤ 1 := by
    by_cases hex : ∃ k : Nat, k < 180 ∧
        (occ (polarCoord sin cos shaderPi texCoord.x (k : α))).a > 0.75
    · classical
      have hk := Nat.find_spec hex
      have hmin : ∀ j : Nat, j < Nat.find hex →
          ¬ (occ (polarCoord sin cos shaderPi texCoord.x (j : α))).a > 0.75 := by
        intro j hj hhit
        exact Nat.find_min hex hj ⟨by omega, hhit⟩
      rw [hfirst (Nat.find hex) hk.1 hk.2 hmin]
      constructor
      · positivity
      · rw [div_le_one (by norm_num)]
        exact_mod_cast hk.1.le
    · rw [hnone (fun k hk hhit => hex ⟨k, hk, hhit⟩)]
      exact ⟨zero_le_one, le_rfl⟩
  refine ⟨?_, hfirst, hnone, hrange⟩
  intro hpos
  rw [polarFragment, if_neg (not_lt.mpr hpos)]

/-- C1, at concrete maps: over a map with alpha 1 everywhere the first index `0` is the
hit and the fragment at `position.y = 0` returns distance `0/180`; over a fully
transparent map the distance is `1`. -/
theorem polar_output_is_first_hit_witness :
    polarFragment Real.sin Real.cos (fun _ => (⟨0, 0, 0, 1⟩ : Vec4 ℝ)) ⟨0, 0, 0, 1⟩ ⟨1 / 4, 0⟩ =
      some ⟨polarDist Real.sin Real.cos (fun _ => (⟨0, 0, 0, 1⟩ : Vec4 ℝ)) (1 / 4),
        polarDist Real.sin Real.cos (fun _ => (⟨0, 0, 0, 1⟩ : Vec4 ℝ)) (1 / 4),
        polarDist Real.sin Real.cos (fun _ => (⟨0, 0, 0, 1⟩ : Vec4 ℝ)) (1 / 4), 1⟩ ∧
    polarDist Real.sin Real.cos (fun _ => (⟨0, 0, 0, 1⟩ : Vec4 ℝ)) (1 / 4) = ((0 : Nat) : ℝ) / 180 ∧
    polarDist Real.sin Real.cos (fun _ => (⟨0, 0, 0, 0⟩ : Vec4 ℝ)) (1 / 4) = 1 :=
  ⟨(polar_output_is_first_hit Real.sin Real.cos (fun _ => (⟨0, 0, 0, 1⟩ : Vec4 ℝ))
      ⟨0, 0, 0, 1⟩ ⟨1 / 4, 0⟩).1 (by norm_num [Vec4.posY]),
   (polar_output_is_first_hit Real.sin Real.cos (fun _ => (⟨0, 0, 0, 1⟩ : Vec4 ℝ))
      ⟨0, 0, 0, 1⟩ ⟨1 / 4, 0⟩).2.1 0 (by norm_num) (by norm_num) (by intro j hj; omega),
   (polar_output_is_first_hit Real.sin Real.cos (fun _ => (⟨0, 0, 0, 0⟩ : Vec4 ℝ))
      ⟨0, 0, 0, 1⟩ ⟨1 / 4, 0⟩).2.2.1 (by intro k _; norm_num)⟩

/-- C3, the code at the cleared map: `Fill(color.NRGBA{255, 255, 255, 255})`
leaves alpha `1 > 0.75` in every pixel, so for every column the loop breaks at
`y = 0` and a fragment that is not discarded returns distance `0`, not `1.0`. -/
theorem polar_cleared_map_gives_zero (sin cos : α → α) (texCoord : Vec2 α) :
    polarDist sin cos clearedOcclusion texCoord.x = 0 ∧
    polarFragment sin cos clearedOcclusion ⟨0, 0, 0, 1⟩ texCoord = some ⟨0, 0, 0, 1⟩ := by
  have h : polarDist sin cos clearedOcclusion texCoord.x = 0 := by
    rw [polarDist, polarMarch, if_pos (by norm_num)]
    simp only [clearedOcclusion, fill, nrgba]
    norm_num
  refine ⟨h, ?_⟩
  rw [polarFragment, if_neg (by norm_num [Vec4.posY])]
  simp only [h]

/-- C10: for every column `s` and every loop index `y` in `0..179`, the
coordinate passed to `imageSrc0UnsafeAt` lies in the unit square, at distance
exactly `(y/180)/2 < 1/2` from the centre `(0.5, 0.5)`. -/
theorem polar_sample_in_unit_square (s : ℝ) (y : Nat) (hy : y < 180) :
    0 ≤ (polarCoord Real.sin Real.cos shaderPi s (y : ℝ)).x ∧
    (polarCoord Real.sin Real.cos shaderPi s (y : ℝ)).x ≤ 1 ∧
    0 ≤ (polarCoord Real.sin Real.cos shaderPi s (y : ℝ)).y ∧
    (polarCoord Real.sin Real.cos shaderPi s (y : ℝ)).y ≤ 1 ∧
    Real.sqrt (((polarCoord Real.sin Real.cos shaderPi s (y : ℝ)).x - 0.5) ^ 2 +
      ((polarCoord Real.sin Real.cos shaderPi s (y : ℝ)).y - 0.5) ^ 2) = ((y : ℝ) / 180) / 2 ∧
    ((y : ℝ) / 180) / 2 < 0.5 := by
  have hy0 : (0 : ℝ) ≤ (y : ℝ) / 180 := by positivity
  have hy1 : (y : ℝ) / 180 < 1 := by
    rw [div_lt_one (by norm_num)]
    exact_mod_cast hy
  simp only [polarCoord]
  set th : ℝ := shaderPi * 1.5 + (s * 2 - 1) * shaderPi with hth
  have hr : (1 + ((y : ℝ) / 180 * 2 - 1)) * 0.5 = (y : ℝ) / 180 := by ring
  rw [hr]
  have hs := Real.sin_le_one th
  have hs2 := Real.neg_one_le_sin th
  have hc := Real.cos_le_one th
  have hc2 := Real.neg_one_le_cos th
  have hsc := Real.sin_sq_add_cos_sq th
  refine ⟨?_, ?_, ?_, ?_, ?_, ?_⟩
  · nlinarith
  · nlinarith
  · nlinarith
  · nlinarith
  · have : (-((y : ℝ) / 180) * Real.sin th / 2 + 0.5 - 0.5) ^ 2 +
        (-((y : ℝ) / 180) * Real.cos th / 2 + 0.5 - 0.5) ^ 2 = ((y : ℝ) / 180 / 2) ^ 2 := by
      have : (-((y : ℝ) / 180) * Real.sin th / 2 + 0.5 - 0.5) ^ 2 +
        (-((y : ℝ) / 180) * Real.cos th / 2 + 0.5 - 0.5) ^ 2
          = ((y : ℝ) / 180 / 2) ^ 2 * (Real.sin th ^ 2 + Real.cos th ^ 2) := by ring
      rw [this, hsc, mul_one]
    rw [this]
    exact Real.sqrt_sq (by positivity)
  · norm_num
    linarith

/-- C10 at column `s = 1/4`, loop index `y = 90`. -/
theorem polar_sample_in_unit_square_witness :
    (90 : Nat) < 180 ∧
    0 ≤ (polarCoord Real.sin Real.cos shaderPi (1 / 4 : ℝ) ((90 : Nat) : ℝ)).x ∧
    (polarCoord Real.sin Real.cos shaderPi (1 / 4 : ℝ) ((90 : Nat) : ℝ)).x ≤ 1 ∧
    0 ≤ (polarCoord Real.sin Real.cos shaderPi (1 / 4 : ℝ) ((90 : Nat) : ℝ)).y ∧
    (polarCoord Real.sin Real.cos shaderPi (1 / 4 : ℝ) ((90 : Nat) : ℝ)).y ≤ 1 ∧
    Real.sqrt (((polarCoord Real.sin Real.cos shaderPi (1 / 4 : ℝ) ((90 : Nat) : ℝ)).x - 0.5) ^ 2 +
      ((polarCoord Real.sin Real.cos shaderPi (1 / 4 : ℝ) ((90 : Nat) : ℝ)).y - 0.5) ^ 2) =
        (((90 : Nat) : ℝ) / 180) / 2 ∧
    (((90 : Nat) : ℝ) / 180) / 2 < 0.5 :=
  ⟨by decide, polar_sample_in_unit_square (1 / 4) 90 (by decide)⟩

/-! ## Claims on `Game` -/

/-- C4, as the code has it: for every vertex list, the wall loop issues one
`StrokeLine` per vertex; the stroke of a vertex `p` that has a successor `q`
runs from `p + 1` to `q + 1`, and the stroke of the last vertex `p` runs from
`p + 1` to `p + 1` itself, a zero-length segment: the last vertex is not joined
back to the first. -/
theorem occlusion_strokes_open (box : List (α × α)) :
    (occlusionStrokes box).length = box.length ∧
    (∀ (i : Nat) (p q : α × α), box[i]? = some p → box[i + 1]? = some q →
      (occlusionStrokes box)[i]? = some ⟨p.1 + 1, p.2 + 1, q.1 + 1, q.2 + 1, 4, true⟩) ∧
    (∀ (i : Nat) (p : α × α), box[i]? = some p → i + 1 = box.length →
      (occlusionStrokes box)[i]? = some ⟨p.1 + 1, p.2 + 1, p.1 + 1, p.2 + 1, 4, true⟩) := by
  refine ⟨by simp [occlusionStrokes], ?_, ?_⟩
  · intro i p q hp hq
    have hlt : i + 1 < box.length := (List.getElem?_eq_some.mp hq).1
    have hq2 : box.getD (i + 1) p = q := by
      rw [List.getD_eq_getElem?_getD, hq]
      rfl
    simp only [occlusionStrokes, List.getElem?_map, List.getElem?_enum, hp, Option.map_some',
      ge_iff_le]
    rw [if_neg (by omega), hq2]
  · intro i p hp hlast
    simp only [occlusionStrokes, List.getElem?_map, List.getElem?_enum, hp, Option.map_some',
      ge_iff_le]
    rw [if_pos (by omega)]

/-- C4 amended, at `openBox`: the stroke of vertex 2 runs to vertex 3, and the
stroke of vertex 3, the last one, is the zero-length segment at `(301, 151)`. -/
theorem occlusion_strokes_open_witness :
    (occlusionStrokes (openBox : List (ℚ × ℚ)))[2]? = some ⟨301, 301, 301, 151, 4, true⟩ ∧
    (occlusionStrokes (openBox : List (ℚ × ℚ)))[3]? = some ⟨301, 151, 301, 151, 4, true⟩ := by
  have h := occlusion_strokes_open (openBox : List (ℚ × ℚ))
  have h2 := h.2.1 2 (300, 300) (300, 150) (by simp [openBox]) (by simp [openBox])
  have h3 := h.2.2 3 (300, 150) (by simp [openBox]) (by simp [openBox])
  norm_num at h2 h3
  exact ⟨h2, h3⟩

/-- C4 as stated fails at `openBox` (4 vertices): the four strokes are the
three sides `p0 p1`, `p1 p2`, `p2 p3` and the zero-length segment at `p3`; no
stroke joins `p3 = (300, 150)` to `p0 = (150, 150)`, with or without the `+1`
offset of the occlusion pass. -/
theorem occlusion_strokes_openBox_not_closed :
    occlusionStrokes (openBox : List (ℚ × ℚ)) =
      [⟨151, 151, 151, 301, 4, true⟩, ⟨151, 301, 301, 301, 4, true⟩,
       ⟨301, 301, 301, 151, 4, true⟩, ⟨301, 151, 301, 151, 4, true⟩] ∧
    (∀ st ∈ occlusionStrokes (openBox : List (ℚ × ℚ)),
      ¬ (st.x0 = 301 ∧ st.y0 = 151 ∧ st.x1 = 151 ∧ st.y1 = 151) ∧
      ¬ (st.x0 = 300 ∧ st.y0 = 150 ∧ st.x1 = 150 ∧ st.y1 = 150)) := by
  have h : occlusionStrokes (openBox : List (ℚ × ℚ)) =
      [⟨151, 151, 151, 301, 4, true⟩, ⟨151, 301, 301, 301, 4, true⟩,
       ⟨301, 301, 301, 151, 4, true⟩, ⟨301, 151, 301, 151, 4, true⟩] := by
    simp [occlusionStrokes, openBox, List.enum, List.enumFrom]
    norm_num
  rw [h]
  refine ⟨rfl, ?_⟩
  intro st hst
  simp only [List.mem_cons, List.mem_singleton, List.not_mem_nil, or_false] at hst
  rcases hst with rfl | rfl | rfl | rfl <;> norm_num

/-! ## Lemmas on the builtins and the blur kernel -/

theorem step_eq_zero_or_one (edge x : α) : step edge x = 0 ∨ step edge x = 1 := by
  unfold step
  split
  · exact Or.inl rfl
  · exact Or.inr rfl

theorem step_nonneg (edge x : α) : 0 ≤ step edge x := by
  rcases step_eq_zero_or_one edge x with h | h <;> rw [h]
  exact zero_le_one

theorem step_le_one (edge x : α) : step edge x ≤ 1 := by
  rcases step_eq_zero_or_one edge x with h | h <;> rw [h]
  exact zero_le_one

theorem step_of_le {edge x : α} (h : edge ≤ x) : step edge x = 1 := by
  unfold step
  rw [if_neg (not_lt.mpr h)]

theorem step_of_lt {edge x : α} (h : x < edge) : step edge x = 0 := by
  unfold step
  rw [if_pos h]

theorem clamp_zero_one_nonneg (x : α) : 0 ≤ clamp x 0 1 := by
  unfold clamp
  exact le_min (le_max_right x 0) zero_le_one

theorem clamp_zero_one_le_one (x : α) : clamp x 0 1 ≤ 1 := by
  unfold clamp
  exact min_le_right _ _

theorem clamp_zero_one_of_mem {x : α} (h0 : 0 ≤ x) (h1 : x ≤ 1) : clamp x 0 1 = x := by
  unfold clamp
  rw [max_eq_left h0, min_eq_left h1]

theorem clamp_zero_one_of_nonpos {x : α} (h : x ≤ 0) : clamp x 0 1 = 0 := by
  unfold clamp
  rw [max_eq_right h, min_eq_left zero_le_one]

theorem smoothstep_nonneg (e0 e1 x : α) : 0 ≤ smoothstep e0 e1 x := by
  unfold smoothstep
  have h0 := clamp_zero_one_nonneg ((x - e0) / (e1 - e0))
  have h1 := clamp_zero_one_le_one ((x - e0) / (e1 - e0))
  simp only
  have : 0 ≤ 3 - 2 * clamp ((x - e0) / (e1 - e0)) 0 1 := by linarith
  exact mul_nonneg (mul_nonneg h0 h0) this

theorem smoothstep_le_one (e0 e1 x : α) : smoothstep e0 e1 x ≤ 1 := by
  unfold smoothstep
  have h0 := clamp_zero_one_nonneg ((x - e0) / (e1 - e0))
  have h1 := clamp_zero_one_le_one ((x - e0) / (e1 - e0))
  simp only
  nlinarith [mul_nonneg (mul_nonneg (sub_nonneg.mpr h1) (sub_nonneg.mpr h1))
    (by linarith : 0 ≤ 1 + 2 * clamp ((x - e0) / (e1 - e0)) 0 1)]

/-- The fade factor `smoothstep(1.0, 0.0, r)` is `t*t*(3 - 2t)` with
`t = clamp(1 - r, 0, 1)`. -/
theorem smoothstep_one_zero (r : α) :
    smoothstep 1 0 r = clamp (1 - r) 0 1 * clamp (1 - r) 0 1 * (3 - 2 * clamp (1 - r) 0 1) := by
  unfold smoothstep
  have : (r - 1) / (0 - 1) = 1 - r := by
    rw [zero_sub, div_neg, div_one, neg_sub]
  simp only [this]

theorem smoothstep_one_zero_of_ge {r : α} (h : 1 ≤ r) : smoothstep 1 0 r = 0 := by
  rw [smoothstep_one_zero, clamp_zero_one_of_nonpos (by linarith)]
  ring

/-- The fade factor does not increase with `r`. -/
theorem smoothstep_one_zero_antitone {r1 r2 : α} (h : r1 ≤ r2) :
    smoothstep 1 0 r2 ≤ smoothstep 1 0 r1 := by
  rw [smoothstep_one_zero, smoothstep_one_zero]
  have ha0 := clamp_zero_one_nonneg (1 - r2)
  have hb1 := clamp_zero_one_le_one (1 - r1)
  have hab : clamp (1 - r2) 0 1 ≤ clamp (1 - r1) 0 1 := by
    unfold clamp
    exact min_le_min (max_le_max (by linarith) le_rfl) le_rfl
  have hb0 := clamp_zero_one_nonneg (1 - r1)
  have ha1 := clamp_zero_one_le_one (1 - r2)
  nlinarith [mul_nonneg (sub_nonneg.mpr hab) (mul_nonneg ha0 (sub_nonneg.mpr hb1)),
    mul_nonneg (sub_nonneg.mpr hab) (mul_nonneg hb0 (sub_nonneg.mpr hb1)),
    mul_nonneg (sub_nonneg.mpr hab) (mul_nonneg ha0 (sub_nonneg.mpr ha1)),
    mul_nonneg (sub_nonneg.mpr hab) (sub_nonneg.mpr hab)]

theorem shadowBlur_nonneg (r : α) : 0 ≤ shadowBlur r := by
  unfold shadowBlur
  exact mul_nonneg (by norm_num) (smoothstep_nonneg 0 1 r)

theorem shadowBlur_le (r : α) : shadowBlur r ≤ 1 / 180 := by
  unfold shadowBlur
  have := smoothstep_le_one 0 1 r
  nlinarith

/-- The value `lit` is the sum of the nine taps, taken at the coordinates
`shadowSampleXs`, each times its kernel weight. -/
theorem shadowLit_eq_taps (polar : Image α) (coord r : α) :
    shadowLit polar coord r =
      (List.zipWith (fun x w => shadowTap polar r x * w) (shadowSampleXs coord r)
        shadowWeights).sum := by
  simp only [shadowLit, shadowSampleXs, shadowWeights, shadowTap, mix, List.zipWith_cons_cons,
    List.zipWith_nil_right, List.sum_cons, List.sum_nil]
  ring

/-- The centre tap enters `lit` with weight `0.16`, every other tap with a
weight that adds up to `0.82`. -/
theorem shadowLit_bounds (polar : Image α) (coord r : α) :
    0.16 * shadowTap polar r coord ≤ shadowLit polar coord r ∧
    shadowLit polar coord r ≤ 0.82 + 0.16 * shadowTap polar r coord := by
  simp only [shadowLit, shadowTap, mix, one_mul]
  have n1 := step_nonneg r (polar ⟨coord - 4 * shadowBlur r, 0⟩).r
  have n2 := step_nonneg r (polar ⟨coord - 3 * shadowBlur r, 0⟩).r
  have n3 := step_nonneg r (polar ⟨coord - 2 * shadowBlur r, 0⟩).r
  have n4 := step_nonneg r (polar ⟨coord - shadowBlur r, 0⟩).r
  have n6 := step_nonneg r (polar ⟨coord + shadowBlur r, 0⟩).r
  have n7 := step_nonneg r (polar ⟨coord + 2 * shadowBlur r, 0⟩).r
  have n8 := step_nonneg r (polar ⟨coord + 3 * shadowBlur r, 0⟩).r
  have n9 := step_nonneg r (polar ⟨coord + 4 * shadowBlur r, 0⟩).r
  have m1 := step_le_one r (polar ⟨coord - 4 * shadowBlur r, 0⟩).r
  have m2 := step_le_one r (polar ⟨coord - 3 * shadowBlur r, 0⟩).r
  have m3 := step_le_one r (polar ⟨coord - 2 * shadowBlur r, 0⟩).r
  have m4 := step_le_one r (polar ⟨coord - shadowBlur r, 0⟩).r
  have m6 := step_le_one r (polar ⟨coord + shadowBlur r, 0⟩).r
  have m7 := step_le_one r (polar ⟨coord + 2 * shadowBlur r, 0⟩).r
  have m8 := step_le_one r (polar ⟨coord + 3 * shadowBlur r, 0⟩).r
  have m9 := step_le_one r (polar ⟨coord + 4 * shadowBlur r, 0⟩).r
  constructor
  · norm_num
    linarith
  · norm_num
    linarith

theorem shadowLit_nonneg (polar : Image α) (coord r : α) : 0 ≤ shadowLit polar coord r := by
  have h := (shadowLit_bounds polar coord r).1
  have := step_nonneg r (polar ⟨coord, 0⟩).r
  unfold shadowTap at h
  linarith

theorem shadowLit_le (polar : Image α) (coord r : α) : shadowLit polar coord r ≤ 0.98 := by
  have h := (shadowLit_bounds polar coord r).2
  have := step_le_one r (polar ⟨coord, 0⟩).r
  unfold shadowTap at h
  norm_num at h ⊢
  linarith

theorem shadowAlphaAt_nonneg (polar : Image α) (pi theta r : α) :
    0 ≤ shadowAlphaAt polar pi theta r := by
  unfold shadowAlphaAt
  have h := shadowLit_le polar (shadowCoord pi theta) r
  simp only
  refine mul_nonneg ?_ (smoothstep_nonneg 1 0 r)
  norm_num at h
  linarith

theorem shadowAlphaAt_le_one (polar : Image α) (pi theta r : α) :
    shadowAlphaAt polar pi theta r ≤ 1 := by
  unfold shadowAlphaAt
  have h := shadowLit_nonneg polar (shadowCoord pi theta) r
  have h2 := shadowLit_le polar (shadowCoord pi theta) r
  have s0 := smoothstep_nonneg (1 : α) 0 r
  have s1 := smoothstep_le_one (1 : α) 0 r
  simp only
  norm_num at h2
  nlinarith

/-- Over a polar map whose red channel is the constant `c`, all nine taps are
`step(r, c)` and `lit` is `0.98 * step(r, c)`: the kernel weights add up to
`0.98`. -/
theorem shadowLit_const (polar : Image α) (c : α) (hc : ∀ p, (polar p).r = c) (coord r : α) :
    shadowLit polar coord r = 0.98 * step r c := by
  simp only [shadowLit, mix, hc]
  norm_num
  ring

theorem shadowFragment_a (atan2 : α → α → α) (sqrt : α → α) (polar : Image α)
    (texCoord : Vec2 α) :
    (shadowFragment atan2 sqrt polar texCoord).a = shadowAlpha atan2 sqrt polar texCoord := by
  simp only [shadowFragment, one_mul]

theorem smoothstep_one_zero_pos {r : α} (h : r < 1) : 0 < smoothstep 1 0 r := by
  rw [smoothstep_one_zero]
  have h1 := clamp_zero_one_le_one (1 - r)
  have h0 : 0 < clamp (1 - r) 0 1 := by
    unfold clamp
    exact lt_min (lt_max_of_lt_left (by linarith)) zero_lt_one
  exact mul_pos (mul_pos h0 h0) (by linarith)

/-- Over a polar map whose red channel is `1` at every coordinate of the unit
square, a tap taken at a horizontal coordinate in `[0, 1]` is `1` when
`r ≤ 1`. Nothing is assumed about samples taken outside the unit square. -/
theorem shadowTap_in_range (polar : Image α)
    (hpolar : ∀ p : Vec2 α, 0 ≤ p.x → p.x ≤ 1 → 0 ≤ p.y → p.y ≤ 1 → (polar p).r = 1)
    {r x : α} (hr : r ≤ 1) (h0 : 0 ≤ x) (h1 : x ≤ 1) : shadowTap polar r x = 1 := by
  rw [shadowTap, hpolar ⟨x, 0⟩ h0 h1 le_rfl zero_le_one]
  exact step_of_le hr

/-- Over such a map, `lit` is the kernel sum in which every tap taken inside
`[0, 1]` counts as `1` and every other tap as whatever the sampler returns. -/
theorem shadowLit_in_range_formula (polar : Image α)
    (hpolar : ∀ p : Vec2 α, 0 ≤ p.x → p.x ≤ 1 → 0 ≤ p.y → p.y ≤ 1 → (polar p).r = 1)
    (coord : α) {r : α} (hr : r ≤ 1) :
    shadowLit polar coord r =
      (List.zipWith (fun x w => (if 0 ≤ x ∧ x ≤ 1 then 1 else shadowTap polar r x) * w)
        (shadowSampleXs coord r) shadowWeights).sum := by
  have hfun : (fun x w => shadowTap polar r x * w) =
      (fun x w => (if 0 ≤ x ∧ x ≤ 1 then 1 else shadowTap polar r x) * w) := by
    funext x w
    by_cases hx : 0 ≤ x ∧ x ≤ 1
    · rw [if_pos hx, shadowTap_in_range polar hpolar hr hx.1 hx.2]
    · rw [if_neg hx]
  rw [shadowLit_eq_taps, hfun]

/-- Over such a map, when all nine sample coordinates lie in `[0, 1]`, `lit`
is the sum `0.98` of the kernel weights. -/
theorem shadowLit_all_in_range (polar : Image α)
    (hpolar : ∀ p : Vec2 α, 0 ≤ p.x → p.x ≤ 1 → 0 ≤ p.y → p.y ≤ 1 → (polar p).r = 1)
    (coord : α) {r : α} (hr : r ≤ 1)
    (hin : ∀ x ∈ shadowSampleXs coord r, 0 ≤ x ∧ x ≤ 1) :
    shadowLit polar coord r = 0.98 := by
  have hfun : ∀ x ∈ shadowSampleXs coord r, shadowTap polar r x = 1 := fun x hx =>
    shadowTap_in_range polar hpolar hr (hin x hx).1 (hin x hx).2
  simp only [shadowSampleXs, List.mem_cons, List.mem_singleton, List.not_mem_nil, or_false,
    forall_eq_or_imp, forall_eq] at hfun
  obtain ⟨h1, h2, h3, h4, h5, h6, h7, h8, h9⟩ := hfun
  simp only [shadowTap] at h1 h2 h3 h4 h5 h6 h7 h8 h9
  simp only [shadowLit, mix, h1, h2, h3, h4, h5, h6, h7, h8, h9]
  norm_num

/-- The seam pixel `texCoord = (1/4, 1/2)` over the polar map that is `1.0` on
the unit square and `0` outside it: `theta = π`, `r = 1/2`, `blur = 1/360`, the
centre tap and the four taps to its right are sampled at coordinates above `1`
and the four taps to its left inside `[0, 1]`, so `lit` is
`0.05 + 0.09 + 0.12 + 0.15 = 0.41`. -/
theorem shadowLit_seam_pixel :
    shadowLit (fun p => if 0 ≤ p.x ∧ p.x ≤ 1 ∧ 0 ≤ p.y ∧ p.y ≤ 1 then (⟨1, 1, 1, 1⟩ : Vec4 ℝ)
        else ⟨0, 0, 0, 0⟩)
      (shadowCoord shaderPi (shadowTheta (fun y x => Complex.arg ⟨x, y⟩) ⟨1 / 4, 1 / 2⟩))
      (shadowRadius Real.sqrt ⟨1 / 4, 1 / 2⟩) = 0.41 := by
  have hr : shadowRadius Real.sqrt (⟨1 / 4, 1 / 2⟩ : Vec2 ℝ) = 1 / 2 := by
    simp only [shadowRadius, length, shadowNorm]
    rw [show (1 / 4 * 2 - 1 : ℝ) * (1 / 4 * 2 - 1) + (1 / 2 * -2 + 1) * (1 / 2 * -2 + 1)
      = (1 / 2) * (1 / 2) by norm_num, Real.sqrt_mul_self (by norm_num)]
  have hth : shadowTheta (fun y x => Complex.arg ⟨x, y⟩) (⟨1 / 4, 1 / 2⟩ : Vec2 ℝ) = Real.pi := by
    simp only [shadowTheta, shadowNorm]
    have : (⟨1 / 4 * 2 - 1, 1 / 2 * -2 + 1⟩ : ℂ) = ((-(1 / 2) : ℝ) : ℂ) := by
      apply Complex.ext <;> norm_num
    rw [this, Complex.arg_ofReal_of_neg (by norm_num)]
  have hblur : shadowBlur (1 / 2 : ℝ) = 1 / 360 := by
    simp only [shadowBlur, smoothstep]
    rw [show ((1 / 2 : ℝ) - 0) / (1 - 0) = 1 / 2 by norm_num,
      clamp_zero_one_of_mem (by norm_num) (by norm_num)]
    norm_num
  have hc1 : 1 < shadowCoord shaderPi Real.pi := by
    simp only [shadowCoord, shaderPi]
    rw [lt_div_iff₀ (by norm_num)]
    have := Real.pi_gt_d2
    norm_num at this ⊢
    linarith
  have hc2 : shadowCoord shaderPi Real.pi < 1 + 1 / 400 := by
    simp only [shadowCoord, shaderPi]
    rw [div_lt_iff₀ (by norm_num)]
    have := Real.pi_lt_d2
    norm_num at this ⊢
    linarith
  rw [hth, hr]
  generalize shadowCoord shaderPi Real.pi = c at hc1 hc2
  have hout : ∀ x : ℝ, 1 < x → ¬ (0 ≤ x ∧ x ≤ 1 ∧ (0 : ℝ) ≤ 0 ∧ (0 : ℝ) ≤ 1) :=
    fun x hx h => absurd h.2.1 (not_le.mpr hx)
  have hin : ∀ x : ℝ, 0 ≤ x → x ≤ 1 → (0 ≤ x ∧ x ≤ 1 ∧ (0 : ℝ) ≤ 0 ∧ (0 : ℝ) ≤ 1) :=
    fun x h0 h1 => ⟨h0, h1, le_rfl, zero_le_one⟩
  simp only [shadowLit, mix, hblur]
  rw [if_pos (hin (c - 4 * (1 / 360)) (by linarith) (by linarith)),
    if_pos (hin (c - 3 * (1 / 360)) (by linarith) (by linarith)),
    if_pos (hin (c - 2 * (1 / 360)) (by linarith) (by linarith)),
    if_pos (hin (c - 1 * (1 / 360)) (by linarith) (by linarith)),
    if_neg (hout c hc1),
    if_neg (hout (c + 1 * (1 / 360)) (by linarith)),
    if_neg (hout (c + 2 * (1 / 360)) (by linarith)),
    if_neg (hout (c + 3 * (1 / 360)) (by linarith)),
    if_neg (hout (c + 4 * (1 / 360)) (by linarith))]
  rw [step_of_le (by norm_num : (1 / 2 : ℝ) ≤ 1), step_of_lt (by norm_num : (0 : ℝ) < 1 / 2)]
  norm_num

/-! ## Claims on `shadowShader` -/

/-- C5: for every polar map and every pixel, the alpha of the returned colour
is `(1 - lit) * smoothstep(1, 0, r)`, it is exactly `0` when the radius
`r = length(norm)` is at least `1`, and it always lies in `[0, 1]`. -/
theorem shadow_alpha_fades_out (atan2 : α → α → α) (sqrt : α → α) (polar : Image α)
    (texCoord : Vec2 α) :
    (shadowFragment atan2 sqrt polar texCoord).a =
      (1 - shadowLit polar (shadowCoord shaderPi (shadowTheta atan2 texCoord))
        (shadowRadius sqrt texCoord)) * smoothstep 1 0 (shadowRadius sqrt texCoord) ∧
    (1 ≤ shadowRadius sqrt texCoord → (shadowFragment atan2 sqrt polar texCoord).a = 0) ∧
    0 ≤ (shadowFragment atan2 sqrt polar texCoord).a ∧
    (shadowFragment atan2 sqrt polar texCoord).a ≤ 1 := by
  rw [shadowFragment_a]
  refine ⟨rfl, ?_, shadowAlphaAt_nonneg _ _ _ _, shadowAlphaAt_le_one _ _ _ _⟩
  intro hr
  simp only [shadowAlpha, shadowAlphaAt]
  rw [smoothstep_one_zero_of_ge hr, mul_zero]

/-- C5 at the pixel `texCoord = (1, 1/2)`, whose radius is `1`. -/
theorem shadow_alpha_fades_out_witness :
    1 ≤ shadowRadius Real.sqrt (⟨1, 1 / 2⟩ : Vec2 ℝ) ∧
    (shadowFragment (fun y x => Complex.arg ⟨x, y⟩) Real.sqrt
      (fun _ => (⟨1 / 2, 1 / 2, 1 / 2, 1⟩ : Vec4 ℝ)) ⟨1, 1 / 2⟩).a = 0 := by
  have h : 1 ≤ shadowRadius Real.sqrt (⟨1, 1 / 2⟩ : Vec2 ℝ) := by
    norm_num [shadowRadius, length, shadowNorm]
  exact ⟨h, (shadow_alpha_fades_out (fun y x => Complex.arg ⟨x, y⟩) Real.sqrt
    (fun _ => (⟨1 / 2, 1 / 2, 1 / 2, 1⟩ : Vec4 ℝ)) ⟨1, 1 / 2⟩).2.1 h⟩

/-- C6, as the code has it: over a polar map that is `1.0` at every coordinate
of the unit square (samples taken outside it are left unconstrained, the
shader does not clamp), at every pixel of radius `r < 1`: every tap whose
sample coordinate lies in `[0, 1]` is `1`; `lit` is the kernel sum with those
taps at `1`, never more than `0.98`, the sum of the kernel weights; the
returned alpha is at least `0.02 * smoothstep(1, 0, r)` and so never `0`; and
when all nine sample coordinates lie in `[0, 1]`, `lit` is `0.98` and the alpha
is `0.02 * smoothstep(1, 0, r)`, at most `0.02`. -/
theorem shadow_uniform_map_lit (atan2 : α → α → α) (sqrt : α → α) (polar : Image α)
    (texCoord : Vec2 α)
    (hpolar : ∀ p : Vec2 α, 0 ≤ p.x → p.x ≤ 1 → 0 ≤ p.y → p.y ≤ 1 → (polar p).r = 1)
    (hr : shadowRadius sqrt texCoord < 1) :
    (∀ x ∈ shadowSampleXs (shadowCoord shaderPi (shadowTheta atan2 texCoord))
        (shadowRadius sqrt texCoord),
      0 ≤ x → x ≤ 1 → shadowTap polar (shadowRadius sqrt texCoord) x = 1) ∧
    shadowLit polar (shadowCoord shaderPi (shadowTheta atan2 texCoord))
        (shadowRadius sqrt texCoord) =
      (List.zipWith (fun x w => (if 0 ≤ x ∧ x ≤ 1 then 1
          else shadowTap polar (shadowRadius sqrt texCoord) x) * w)
        (shadowSampleXs (shadowCoord shaderPi (shadowTheta atan2 texCoord))
          (shadowRadius sqrt texCoord)) shadowWeights).sum ∧
    shadowLit polar (shadowCoord shaderPi (shadowTheta atan2 texCoord))
      (shadowRadius sqrt texCoord) ≤ 0.98 ∧
    0.02 * smoothstep 1 0 (shadowRadius sqrt texCoord) ≤
      (shadowFragment atan2 sqrt polar texCoord).a ∧
    0 < (shadowFragment atan2 sqrt polar texCoord).a ∧
    ((∀ x ∈ shadowSampleXs (shadowCoord shaderPi (shadowTheta atan2 texCoord))
        (shadowRadius sqrt texCoord), 0 ≤ x ∧ x ≤ 1) →
      shadowLit polar (shadowCoord shaderPi (shadowTheta atan2 texCoord))
        (shadowRadius sqrt texCoord) = 0.98 ∧
      (shadowFragment atan2 sqrt polar texCoord).a =
        0.02 * smoothstep 1 0 (shadowRadius sqrt texCoord) ∧
      (shadowFragment atan2 sqrt polar texCoord).a ≤ 0.02) := by
  have s0 := smoothstep_one_zero_pos hr
  have s1 := smoothstep_le_one (1 : α) 0 (shadowRadius sqrt texCoord)
  have hle := shadowLit_le polar (shadowCoord shaderPi (shadowTheta atan2 texCoord))
    (shadowRadius sqrt texCoord)
  have ha : (shadowFragment atan2 sqrt polar texCoord).a =
      (1 - shadowLit polar (shadowCoord shaderPi (shadowTheta atan2 texCoord))
        (shadowRadius sqrt texCoord)) * smoothstep 1 0 (shadowRadius sqrt texCoord) := by
    rw [shadowFragment_a]
    rfl
  have hlow : 0.02 * smoothstep 1 0 (shadowRadius sqrt texCoord) ≤
      (shadowFragment atan2 sqrt polar texCoord).a := by
    rw [ha]
    refine mul_le_mul_of_nonneg_right ?_ s0.le
    norm_num at hle ⊢
    linarith
  refine ⟨?_, shadowLit_in_range_formula polar hpolar _ hr.le, hle, hlow, ?_, ?_⟩
  · intro x _ h0 h1
    exact shadowTap_in_range polar hpolar hr.le h0 h1
  · exact lt_of_lt_of_le (mul_pos (by norm_num) s0) hlow
  · intro hin
    have hlit := shadowLit_all_in_range polar hpolar _ hr.le hin
    have ha2 : (shadowFragment atan2 sqrt polar texCoord).a =
        0.02 * smoothstep 1 0 (shadowRadius sqrt texCoord) := by
      rw [ha, hlit]
      norm_num
    refine ⟨hlit, ha2, ?_⟩
    rw [ha2]
    norm_num at s1 ⊢
    linarith

/-- C6 amended, at the seam pixel `texCoord = (1/4, 1/2)` (radius `1/2`) over
the polar map that is `1.0` on the unit square and `0` outside it: the
returned alpha is positive. -/
theorem shadow_uniform_map_lit_witness :
    shadowRadius Real.sqrt (⟨1 / 4, 1 / 2⟩ : Vec2 ℝ) < 1 ∧
    0 < (shadowFragment (fun y x => Complex.arg ⟨x, y⟩) Real.sqrt
      (fun p => if 0 ≤ p.x ∧ p.x ≤ 1 ∧ 0 ≤ p.y ∧ p.y ≤ 1 then (⟨1, 1, 1, 1⟩ : Vec4 ℝ)
        else ⟨0, 0, 0, 0⟩) ⟨1 / 4, 1 / 2⟩).a := by
  have h : shadowRadius Real.sqrt (⟨1 / 4, 1 / 2⟩ : Vec2 ℝ) < 1 := by
    simp only [shadowRadius, length, shadowNorm]
    rw [show (1 / 4 * 2 - 1 : ℝ) * (1 / 4 * 2 - 1) + (1 / 2 * -2 + 1) * (1 / 2 * -2 + 1)
      = (1 / 2) * (1 / 2) by norm_num, Real.sqrt_mul_self (by norm_num)]
    norm_num
  exact ⟨h, (shadow_uniform_map_lit (fun y x => Complex.arg ⟨x, y⟩) Real.sqrt
    (fun p => if 0 ≤ p.x ∧ p.x ≤ 1 ∧ 0 ≤ p.y ∧ p.y ≤ 1 then (⟨1, 1, 1, 1⟩ : Vec4 ℝ)
      else ⟨0, 0, 0, 0⟩) ⟨1 / 4, 1 / 2⟩
    (fun p h0 h1 h2 h3 => by simp only [if_pos (And.intro h0 (And.intro h1 (And.intro h2 h3)))])
    h).2.2.2.2.1⟩

/-- C6 as stated fails at the centre pixel `texCoord = (1/2, 1/2)` over the
polar map that is `1.0` everywhere: the radius is `0 < 1`, yet `lit` is `0.98`,
not `1`, and the returned alpha is `0.02`, not `0`. -/
theorem shadow_uniform_map_not_fully_lit :
    shadowRadius Real.sqrt (⟨1 / 2, 1 / 2⟩ : Vec2 ℝ) = 0 ∧
    shadowLit (fun _ => (⟨1, 1, 1, 1⟩ : Vec4 ℝ))
      (shadowCoord shaderPi (shadowTheta (fun y x => Complex.arg ⟨x, y⟩) ⟨1 / 2, 1 / 2⟩))
      (shadowRadius Real.sqrt ⟨1 / 2, 1 / 2⟩) ≠ 1 ∧
    (shadowFragment (fun y x => Complex.arg ⟨x, y⟩) Real.sqrt
      (fun _ => (⟨1, 1, 1, 1⟩ : Vec4 ℝ)) ⟨1 / 2, 1 / 2⟩).a = 0.02 ∧
    (shadowFragment (fun y x => Complex.arg ⟨x, y⟩) Real.sqrt
      (fun _ => (⟨1, 1, 1, 1⟩ : Vec4 ℝ)) ⟨1 / 2, 1 / 2⟩).a ≠ 0 := by
  have h : shadowRadius Real.sqrt (⟨1 / 2, 1 / 2⟩ : Vec2 ℝ) = 0 := by
    norm_num [shadowRadius, length, shadowNorm]
  have hlit : ∀ coord : ℝ, shadowLit (fun _ => (⟨1, 1, 1, 1⟩ : Vec4 ℝ)) coord 0 = 0.98 := by
    intro coord
    rw [shadowLit_const _ 1 (fun _ => rfl), step_of_le zero_le_one, mul_one]
  have ha : (shadowFragment (fun y x => Complex.arg ⟨x, y⟩) Real.sqrt
      (fun _ => (⟨1, 1, 1, 1⟩ : Vec4 ℝ)) ⟨1 / 2, 1 / 2⟩).a = 0.02 := by
    rw [shadowFragment_a]
    simp only [shadowAlpha, shadowAlphaAt]
    rw [h, hlit, smoothstep_one_zero, clamp_zero_one_of_mem (by norm_num) (by norm_num)]
    norm_num
  refine ⟨h, ?_, ha, ?_⟩
  · rw [h, hlit]
    norm_num
  · rw [ha]
    norm_num

/-- C7, as the code has it: along a fixed angle whose stored distance `dist`
lies strictly between `0` and `1`, the alphas at `r = dist - ε` and at
`r = dist + ε` differ by at most `0.98`, the sum of all nine kernel weights:
the taps compare against `r` with a hard `step`, so every tap can flip
between the two radii. -/
theorem shadow_alpha_jump_bound (polar : Image α) (pi theta dist ε : α)
    (hdist : dist = (polar ⟨shadowCoord pi theta, 0⟩).r)
    (hε : 0 < ε) (hlo : 0 < dist - ε) (hhi : dist + ε < 1) :
    |shadowAlphaAt polar pi theta (dist - ε) - shadowAlphaAt polar pi theta (dist + ε)|
      ≤ 0.98 := by
  have hc1 : shadowTap polar (dist - ε) (shadowCoord pi theta) = 1 := by
    rw [shadowTap, ← hdist]
    exact step_of_le (by linarith)
  have hc2 : shadowTap polar (dist + ε) (shadowCoord pi theta) = 0 := by
    rw [shadowTap, ← hdist]
    exact step_of_lt (by linarith)
  have b1 := shadowLit_bounds polar (shadowCoord pi theta) (dist - ε)
  have b2 := shadowLit_bounds polar (shadowCoord pi theta) (dist + ε)
  rw [hc1] at b1
  rw [hc2] at b2
  have s1 := smoothstep_le_one (1 : α) 0 (dist - ε)
  have s2 := smoothstep_nonneg (1 : α) 0 (dist + ε)
  have s12 : smoothstep (1 : α) 0 (dist + ε) ≤ smoothstep 1 0 (dist - ε) :=
    smoothstep_one_zero_antitone (by linarith)
  simp only [shadowAlphaAt]
  norm_num at b1 b2 ⊢
  rw [abs_le]
  constructor
  · nlinarith [mul_nonneg (by linarith : 0 ≤ shadowLit polar (shadowCoord pi theta) (dist + ε)) s2,
      mul_nonneg (by linarith : 0 ≤ 49 / 50 - shadowLit polar (shadowCoord pi theta) (dist - ε))
        (by linarith : 0 ≤ smoothstep (1 : α) 0 (dist - ε))]
  · nlinarith [mul_nonneg (by linarith : 0 ≤ 41 / 50 - shadowLit polar (shadowCoord pi theta) (dist + ε)) s2,
      mul_nonneg (by linarith : 0 ≤ shadowLit polar (shadowCoord pi theta) (dist - ε) - 4 / 25)
        (by linarith : 0 ≤ smoothstep (1 : α) 0 (dist - ε))]

/-- C7 amended, over the polar map that stores `1/2` everywhere, at angle `0`
with `dist = 1/2` and `ε = 1/10`. -/
theorem shadow_alpha_jump_bound_witness :
    |shadowAlphaAt (fun _ => (⟨1 / 2, 1 / 2, 1 / 2, 1⟩ : Vec4 ℚ)) shaderPi 0 (1 / 2 - 1 / 10) -
      shadowAlphaAt (fun _ => (⟨1 / 2, 1 / 2, 1 / 2, 1⟩ : Vec4 ℚ)) shaderPi 0 (1 / 2 + 1 / 10)|
      ≤ 0.98 :=
  shadow_alpha_jump_bound (fun _ => (⟨1 / 2, 1 / 2, 1 / 2, 1⟩ : Vec4 ℚ)) shaderPi 0 (1 / 2)
    (1 / 10) rfl (by norm_num) (by norm_num) (by norm_num)

/-- C7 as stated fails over the polar map that stores `dist = 1/2` in every
column, at angle `theta = 0` with `ε = 1/10`: the alpha at `r = 0.4` is
`0.01296`, the alpha at `r = 0.6` is `0.352`, and they differ by `0.33904`,
more than the largest kernel weight `0.16`. These are the alphas of the pixels
`texCoord = (0.7, 0.5)` and `texCoord = (0.8, 0.5)`. -/
theorem shadow_alpha_jump_exceeds_tap_weight :
    ((fun _ => ⟨1 / 2, 1 / 2, 1 / 2, 1⟩ : Image ℝ) ⟨shadowCoord shaderPi 0, 0⟩).r = 1 / 2 ∧
    (0 : ℝ) < 1 / 2 - 1 / 10 ∧ (1 / 2 + 1 / 10 : ℝ) < 1 ∧
    shadowAlphaAt (fun _ => (⟨1 / 2, 1 / 2, 1 / 2, 1⟩ : Vec4 ℝ)) shaderPi 0 (1 / 2 - 1 / 10)
      = 0.01296 ∧
    shadowAlphaAt (fun _ => (⟨1 / 2, 1 / 2, 1 / 2, 1⟩ : Vec4 ℝ)) shaderPi 0 (1 / 2 + 1 / 10)
      = 0.352 ∧
    ¬ |shadowAlphaAt (fun _ => (⟨1 / 2, 1 / 2, 1 / 2, 1⟩ : Vec4 ℝ)) shaderPi 0 (1 / 2 - 1 / 10) -
      shadowAlphaAt (fun _ => (⟨1 / 2, 1 / 2, 1 / 2, 1⟩ : Vec4 ℝ)) shaderPi 0 (1 / 2 + 1 / 10)|
      ≤ 0.16 ∧
    shadowAlpha (fun y x => Complex.arg ⟨x, y⟩) Real.sqrt
      (fun _ => (⟨1 / 2, 1 / 2, 1 / 2, 1⟩ : Vec4 ℝ)) ⟨7 / 10, 1 / 2⟩ = 0.01296 ∧
    shadowAlpha (fun y x => Complex.arg ⟨x, y⟩) Real.sqrt
      (fun _ => (⟨1 / 2, 1 / 2, 1 / 2, 1⟩ : Vec4 ℝ)) ⟨8 / 10, 1 / 2⟩ = 0.352 := by
  have a1 : ∀ th : ℝ, shadowAlphaAt (fun _ => (⟨1 / 2, 1 / 2, 1 / 2, 1⟩ : Vec4 ℝ)) shaderPi th
      (2 / 5) = 0.01296 := by
    intro th
    simp only [shadowAlphaAt]
    rw [shadowLit_const _ (1 / 2) (fun _ => rfl), step_of_le (by norm_num), smoothstep_one_zero,
      clamp_zero_one_of_mem (by norm_num) (by norm_num)]
    norm_num
  have a2 : ∀ th : ℝ, shadowAlphaAt (fun _ => (⟨1 / 2, 1 / 2, 1 / 2, 1⟩ : Vec4 ℝ)) shaderPi th
      (3 / 5) = 0.352 := by
    intro th
    simp only [shadowAlphaAt]
    rw [shadowLit_const _ (1 / 2) (fun _ => rfl), step_of_lt (by norm_num), smoothstep_one_zero,
      clamp_zero_one_of_mem (by norm_num) (by norm_num)]
    norm_num
  have r1 : shadowRadius Real.sqrt (⟨7 / 10, 1 / 2⟩ : Vec2 ℝ) = 2 / 5 := by
    simp only [shadowRadius, length, shadowNorm]
    rw [show (7 / 10 * 2 - 1 : ℝ) * (7 / 10 * 2 - 1) + (1 / 2 * -2 + 1) * (1 / 2 * -2 + 1)
      = (2 / 5) * (2 / 5) by norm_num]
    exact Real.sqrt_mul_self (by norm_num)
  have r2 : shadowRadius Real.sqrt (⟨8 / 10, 1 / 2⟩ : Vec2 ℝ) = 3 / 5 := by
    simp only [shadowRadius, length, shadowNorm]
    rw [show (8 / 10 * 2 - 1 : ℝ) * (8 / 10 * 2 - 1) + (1 / 2 * -2 + 1) * (1 / 2 * -2 + 1)
      = (3 / 5) * (3 / 5) by norm_num]
    exact Real.sqrt_mul_self (by norm_num)
  have e1 : (1 / 2 - 1 / 10 : ℝ) = 2 / 5 := by norm_num
  have e2 : (1 / 2 + 1 / 10 : ℝ) = 3 / 5 := by norm_num
  rw [e1, e2]
  refine ⟨rfl, by norm_num, by norm_num, a1 0, a2 0, ?_, ?_, ?_⟩
  · rw [a1 0, a2 0, not_le, abs_sub_comm]
    norm_num [abs_of_pos]
  · rw [shadowAlpha, r1]
    exact a1 _
  · rw [shadowAlpha, r2]
    exact a2 _

/-- C8, as the code has it: the nine horizontal coordinates are passed to
`imageSrc0UnsafeAt` as computed, with no clamp or wrap (`lit` is the weighted
sum of the taps taken at exactly `shadowSampleXs`); for every pixel each of
them lies in `[-1/40, 1 + 1/40]`, the overshoot coming from `pi = 3.14` being
below the exact `π` and from the blur offsets of up to `4/180`. -/
theorem shadow_sample_coords_range (polar : Image ℝ) (texCoord : Vec2 ℝ) :
    shadowLit polar (shadowCoord shaderPi (shadowTheta (fun y x => Complex.arg ⟨x, y⟩) texCoord))
        (shadowRadius Real.sqrt texCoord) =
      (List.zipWith (fun x w => shadowTap polar (shadowRadius Real.sqrt texCoord) x * w)
        (shadowSampleXs (shadowCoord shaderPi (shadowTheta (fun y x => Complex.arg ⟨x, y⟩) texCoord))
          (shadowRadius Real.sqrt texCoord)) shadowWeights).sum ∧
    ∀ x ∈ shadowSampleXs (shadowCoord shaderPi (shadowTheta (fun y x => Complex.arg ⟨x, y⟩) texCoord))
        (shadowRadius Real.sqrt texCoord),
      -(1 / 40) ≤ x ∧ x ≤ 1 + 1 / 40 := by
  refine ⟨shadowLit_eq_taps _ _ _, ?_⟩
  intro x hx
  have hb0 := shadowBlur_nonneg (shadowRadius Real.sqrt texCoord)
  have hb1 := shadowBlur_le (shadowRadius Real.sqrt texCoord)
  have hlo := Complex.neg_pi_lt_arg ⟨(shadowNorm texCoord).x, (shadowNorm texCoord).y⟩
  have hhi := Complex.arg_le_pi ⟨(shadowNorm texCoord).x, (shadowNorm texCoord).y⟩
  have hpi := Real.pi_lt_d2
  have hc0 : -(1 / 400) ≤
      shadowCoord shaderPi (shadowTheta (fun y x => Complex.arg ⟨x, y⟩) texCoord) := by
    simp only [shadowCoord, shadowTheta, shaderPi]
    rw [le_div_iff₀ (by norm_num)]
    norm_num at hpi ⊢
    linarith
  have hc1 : shadowCoord shaderPi (shadowTheta (fun y x => Complex.arg ⟨x, y⟩) texCoord)
      ≤ 1 + 1 / 400 := by
    simp only [shadowCoord, shadowTheta, shaderPi]
    rw [div_le_iff₀ (by norm_num)]
    norm_num at hpi ⊢
    linarith
  simp only [shadowSampleXs, List.mem_cons, List.mem_singleton, List.not_mem_nil, or_false] at hx
  norm_num at hb1
  rcases hx with h | h | h | h | h | h | h | h | h <;> rw [h] <;> constructor <;> linarith

/-- C8 amended, at the pixel `texCoord = (0, 1/2)`: the coordinate of the
centre tap lies in `[-1/40, 1 + 1/40]`. -/
theorem shadow_sample_coords_range_witness :
    -(1 / 40) ≤ shadowCoord shaderPi (shadowTheta (fun y x => Complex.arg ⟨x, y⟩) ⟨0, 1 / 2⟩) ∧
    shadowCoord shaderPi (shadowTheta (fun y x => Complex.arg ⟨x, y⟩) ⟨0, 1 / 2⟩) ≤ 1 + 1 / 40 :=
  (shadow_sample_coords_range (fun _ => ⟨1, 1, 1, 1⟩) ⟨0, 1 / 2⟩).2
    (shadowCoord shaderPi (shadowTheta (fun y x => Complex.arg ⟨x, y⟩) ⟨0, 1 / 2⟩))
    (by simp [shadowSampleXs])

/-- C8 as stated fails at the pixel `texCoord = (0, 1/2)` on the angular seam:
`norm = (-1, 0)`, `theta = atan2(0, -1) = π`, and the centre tap is sampled at
`coord = (π + 3.14) / 6.28`, which is greater than `1`. -/
theorem shadow_sample_coord_exceeds_one :
    shadowTheta (fun y x => Complex.arg ⟨x, y⟩) (⟨0, 1 / 2⟩ : Vec2 ℝ) = Real.pi ∧
    shadowCoord shaderPi (shadowTheta (fun y x => Complex.arg ⟨x, y⟩) (⟨0, 1 / 2⟩ : Vec2 ℝ)) ∈
      shadowSampleXs
        (shadowCoord shaderPi (shadowTheta (fun y x => Complex.arg ⟨x, y⟩) (⟨0, 1 / 2⟩ : Vec2 ℝ)))
        (shadowRadius Real.sqrt ⟨0, 1 / 2⟩) ∧
    1 < shadowCoord shaderPi (shadowTheta (fun y x => Complex.arg ⟨x, y⟩) (⟨0, 1 / 2⟩ : Vec2 ℝ)) := by
  have hth : shadowTheta (fun y x => Complex.arg ⟨x, y⟩) (⟨0, 1 / 2⟩ : Vec2 ℝ) = Real.pi := by
    simp only [shadowTheta, shadowNorm]
    have : (⟨0 * 2 - 1, 1 / 2 * -2 + 1⟩ : ℂ) = -1 := by
      apply Complex.ext <;> norm_num
    rw [this, Complex.arg_neg_one]
  refine ⟨hth, by simp [shadowSampleXs], ?_⟩
  rw [hth]
  simp only [shadowCoord, shaderPi]
  rw [lt_div_iff₀ (by norm_num)]
  have := Real.pi_gt_d2
  norm_num at this ⊢
  linarith

/-- C9: with the exact `π` for the shaders' `pi`, for every texture coordinate
`(s, t)` of the unit square other than the centre, the polar shader's sample
coordinate for column `u = (theta + π)/(2π)` and radius `r = length(norm)`
(loop variable `y = 180 r`, so that `y / 180 = r`) is `(s, t)` again. -/
theorem polar_coord_inverts_shadow_coord (s t : ℝ) (_hs : 0 ≤ s ∧ s ≤ 1) (_ht : 0 ≤ t ∧ t ≤ 1)
    (_hne : ¬ (s = 1 / 2 ∧ t = 1 / 2)) :
    (polarCoord Real.sin Real.cos Real.pi
      (shadowCoord Real.pi (shadowTheta (fun y x => Complex.arg ⟨x, y⟩) ⟨s, t⟩))
      (180 * shadowRadius Real.sqrt ⟨s, t⟩)).x = s ∧
    (polarCoord Real.sin Real.cos Real.pi
      (shadowCoord Real.pi (shadowTheta (fun y x => Complex.arg ⟨x, y⟩) ⟨s, t⟩))
      (180 * shadowRadius Real.sqrt ⟨s, t⟩)).y = t := by
  have hpi : Real.pi ≠ 0 := Real.pi_ne_zero
  set z : ℂ := ⟨s * 2 - 1, t * -2 + 1⟩ with hz
  have habs : shadowRadius Real.sqrt ⟨s, t⟩ = Complex.abs z := by
    simp only [shadowRadius, length, shadowNorm, hz, Complex.abs_apply, Complex.normSq_mk]
  have hth : shadowTheta (fun y x => Complex.arg ⟨x, y⟩) (⟨s, t⟩ : Vec2 ℝ) = Complex.arg z := by
    simp only [shadowTheta, shadowNorm, hz]
  have hangle : Real.pi * 1.5 + (shadowCoord Real.pi (Complex.arg z) * 2 - 1) * Real.pi
      = Complex.arg z + Real.pi + Real.pi / 2 := by
    simp only [shadowCoord]
    field_simp
    ring
  have hr : (1 + (180 * Complex.abs z / 180 * 2 - 1)) * 0.5 = Complex.abs z := by
    ring
  have hsin : Real.sin (Complex.arg z + Real.pi + Real.pi / 2) = -Real.cos (Complex.arg z) := by
    rw [Real.sin_add_pi_div_two, Real.cos_add_pi]
  have hcos : Real.cos (Complex.arg z + Real.pi + Real.pi / 2) = Real.sin (Complex.arg z) := by
    rw [Real.cos_add_pi_div_two, Real.sin_add_pi, neg_neg]
  have hre : Complex.abs z * Real.cos (Complex.arg z) = s * 2 - 1 :=
    Complex.abs_mul_cos_arg z
  have him : Complex.abs z * Real.sin (Complex.arg z) = t * -2 + 1 :=
    Complex.abs_mul_sin_arg z
  simp only [polarCoord]
  rw [hth, habs, hangle, hr, hsin, hcos]
  constructor
  · have : -Complex.abs z * -Real.cos (Complex.arg z) / 2 + 0.5
        = (Complex.abs z * Real.cos (Complex.arg z)) / 2 + 0.5 := by ring
    rw [this, hre]
    ring
  · have : -Complex.abs z * Real.sin (Complex.arg z) / 2 + 0.5
        = -(Complex.abs z * Real.sin (Complex.arg z)) / 2 + 0.5 := by ring
    rw [this, him]
    ring

/-- C9 at the pixel `texCoord = (1, 1/2)`. -/
theorem polar_coord_inverts_shadow_coord_witness :
    (polarCoord Real.sin Real.cos Real.pi
      (shadowCoord Real.pi (shadowTheta (fun y x => Complex.arg ⟨x, y⟩) ⟨1, 1 / 2⟩))
      (180 * shadowRadius Real.sqrt ⟨1, 1 / 2⟩)).x = 1 ∧
    (polarCoord Real.sin Real.cos Real.pi
      (shadowCoord Real.pi (shadowTheta (fun y x => Complex.arg ⟨x, y⟩) ⟨1, 1 / 2⟩))
      (180 * shadowRadius Real.sqrt ⟨1, 1 / 2⟩)).y = 1 / 2 :=
  polar_coord_inverts_shadow_coord 1 (1 / 2) (by norm_num) (by norm_num) (by norm_num)

/-- C2, as the code has it: the radius the shadow shader computes depends on
the texture coordinate alone, not on the light position `L`; at the pixel of
texture coordinate `L/400` it is the distance from `L` to the canvas centre
`(200, 200)` over `200`, so it is `0` there exactly when `L = (200, 200)`. -/
theorem shadow_radius_zero_iff_centre (L : ℝ × ℝ) :
    shadowRadius Real.sqrt ⟨L.1 / 400, L.2 / 400⟩ =
      Real.sqrt ((L.1 - 200) ^ 2 + (L.2 - 200) ^ 2) / 200 ∧
    (shadowRadius Real.sqrt ⟨L.1 / 400, L.2 / 400⟩ = 0 ↔ L = (200, 200)) := by
  have hA : 0 ≤ (L.1 - 200) ^ 2 + (L.2 - 200) ^ 2 := by positivity
  have h : shadowRadius Real.sqrt ⟨L.1 / 400, L.2 / 400⟩ =
      Real.sqrt ((L.1 - 200) ^ 2 + (L.2 - 200) ^ 2) / 200 := by
    simp only [shadowRadius, length, shadowNorm]
    rw [show (L.1 / 400 * 2 - 1) * (L.1 / 400 * 2 - 1) + (L.2 / 400 * -2 + 1) * (L.2 / 400 * -2 + 1)
      = ((L.1 - 200) ^ 2 + (L.2 - 200) ^ 2) / (200 * 200) by ring]
    rw [Real.sqrt_div hA, Real.sqrt_mul_self (by norm_num)]
  refine ⟨h, ?_⟩
  rw [h, div_eq_zero_iff, Real.sqrt_eq_zero hA]
  constructor
  · intro hz
    rcases hz with hz | hz
    · have h1 : L.1 - 200 = 0 := by nlinarith [sq_nonneg (L.1 - 200), sq_nonneg (L.2 - 200)]
      have h2 : L.2 - 200 = 0 := by nlinarith [sq_nonneg (L.1 - 200), sq_nonneg (L.2 - 200)]
      exact Prod.ext (by simpa using sub_eq_zero.mp h1) (by simpa using sub_eq_zero.mp h2)
    · norm_num at hz
  · intro hL
    left
    rw [hL]
    norm_num

/-- C2 as stated fails after one `Update` with the left key down: the light
moves from `(200, 200)` to `L = (199, 200)`, inside the canvas, and at the
pixel of texture coordinate `L/400` the shader's radius is `1/200`, not `0`. -/
theorem shadow_radius_ignores_light :
    Update ⟨true, false, false, false, false, false, false, false⟩ (circle : ℝ × ℝ) = (199, 200) ∧
    shadowRadius Real.sqrt (⟨199 / 400, 200 / 400⟩ : Vec2 ℝ) = 1 / 200 ∧
    shadowRadius Real.sqrt (⟨199 / 400, 200 / 400⟩ : Vec2 ℝ) ≠ 0 := by
  have h : shadowRadius Real.sqrt (⟨199 / 400, 200 / 400⟩ : Vec2 ℝ) = 1 / 200 := by
    simp only [shadowRadius, length, shadowNorm]
    rw [show (199 / 400 * 2 - 1 : ℝ) * (199 / 400 * 2 - 1) + (200 / 400 * -2 + 1) * (200 / 400 * -2 + 1)
      = (1 / 200) * (1 / 200) by norm_num]
    exact Real.sqrt_mul_self (by norm_num)
  refine ⟨?_, h, ?_⟩
  · simp only [Update, circle]
    norm_num
  · rw [h]
    norm_num

end PolarShadow
